import Mathlib

/-!
Verification development for a consistent-hashing ring (`consistenthash`)
and an LRU cache (`lru`), shallowly embedded from the Go sources.

Conventions of the embedding:
* Go `uint32` hash values are `Nat` reduced modulo `2^32` at the point where
  the Go code applies the `Hash` function (whose codomain is `uint32`).
* Go slices become `List`, Go maps from positions to node names become total
  functions `Nat → String` defaulting to `""` (the Go zero value a map read
  returns for a missing key).
* `sort.Ints` is modelled by `List.insertionSort (· ≤ ·)` (any ascending
  sort; only sortedness and the multiset of elements matter).
* `sort.Search` is embedded as the same binary search loop Go runs.
-/

namespace ConsistentHash

/-- The binary-search loop of Go `sort.Search`: invariant `f` is false on
`[0, i)` and true on `[j, n)`; returns the meeting point. -/
def searchGo (f : Nat → Bool) (i j : Nat) : Nat :=
  if h : i < j then
    let m := (i + j) / 2
    if f m then searchGo f i m else searchGo f (m + 1) j
  else i
termination_by j - i
decreasing_by
  · omega
  · omega

/-- Go `sort.Search n f`: smallest index in `[0, n)` where `f` is true
(assuming `f` monotone), else `n`. -/
def sortSearch (n : Nat) (f : Nat → Bool) : Nat :=
  searchGo f 0 n

/-- 2^32, the number of `uint32` values. -/
def uint32Card : Nat := 4294967296

/-- The `Map` struct of package `consistenthash`: hash function, replica
count, ring positions (`keys`), and position-to-node map (`hashMap`). -/
structure Map where
  hash : String → Nat
  replicas : Nat
  keys : List Nat
  hashMap : Nat → String

/-- Applying the ring's hash function; the `% 2^32` records that the Go
`Hash` type returns `uint32`. -/
def Map.hashVal (m : Map) (s : String) : Nat :=
  m.hash s % uint32Card

/-- Bitwise CRC-32 (IEEE polynomial, reflected), the Go
`crc32.ChecksumIEEE` default hash, computed over the UTF-8 bytes. -/
def crc32ChecksumIEEE (s : String) : Nat :=
  let step := fun (crc b : Nat) =>
    (List.range 8).foldl
      (fun c _ => if c % 2 = 1 then (c / 2) ^^^ 0xEDB88320 else c / 2)
      (crc ^^^ b)
  ((s.toUTF8.toList.map UInt8.toNat).foldl step 0xFFFFFFFF) ^^^ 0xFFFFFFFF

/-- `consistenthash.New`: empty ring; a missing hash function defaults to
`crc32.ChecksumIEEE`. -/
def Map.New (replicas : Nat) (fn : Option (String → Nat)) : Map :=
  { hash := fn.getD crc32ChecksumIEEE
    replicas := replicas
    keys := []
    hashMap := fun _ => "" }

/-- `Map.IsEmpty`: true iff no ring positions exist. -/
def Map.IsEmpty (m : Map) : Bool :=
  m.keys.length = 0

/-- The inner loop body of `Map.Add` for one node `key`: for each replica
index `i`, append `hash(itoa(i) + key)` to `keys` and point `hashMap` at
`key` there. -/
def Map.addKey (m : Map) (key : String) : Map :=
  (List.range m.replicas).foldl
    (fun acc i =>
      let h := acc.hashVal (toString i ++ key)
      { acc with
          keys := acc.keys ++ [h]
          hashMap := fun p => if p = h then key else acc.hashMap p })
    m

/-- `Map.Add`: process every supplied node, then re-sort the positions
ascending (`sort.Ints`). -/
def Map.Add (m : Map) (ks : List String) : Map :=
  let m2 := ks.foldl Map.addKey m
  { m2 with keys := m2.keys.insertionSort (· ≤ ·) }

/-- `Map.Get`: empty ring returns `""`; otherwise binary-search for the
first position `≥ hash(key)`, wrapping to index 0 past the end. -/
def Map.Get (m : Map) (key : String) : String :=
  if m.IsEmpty then ""
  else
    let h := m.hashVal key
    let idx := sortSearch m.keys.length (fun i => decide (h ≤ m.keys.getD i 0))
    let idx2 := if idx = m.keys.length then 0 else idx
    m.hashMap (m.keys.getD idx2 0)

/-- The flat list of `(position, node)` pairs one `Add` call generates, in
insertion order. -/
def Map.genPairs (m : Map) (ks : List String) : List (Nat × String) :=
  ks.flatMap (fun key =>
    (List.range m.replicas).map
      (fun i => (m.hashVal (toString i ++ key), key)))

theorem searchGo_of_lt (f : Nat → Bool) (i j : Nat) (h : i < j) :
    searchGo f i j =
      if f ((i + j) / 2) then searchGo f i ((i + j) / 2)
      else searchGo f ((i + j) / 2 + 1) j := by
  rw [searchGo]; simp [h]

theorem searchGo_of_ge (f : Nat → Bool) (i j : Nat) (h : ¬ i < j) :
    searchGo f i j = i := by
  rw [searchGo]; simp [h]

/-- Correctness of the `sort.Search` loop: for a predicate monotone on the
window, the result splits `[i, j)` into a false part and a true part. -/
theorem searchGo_correct (f : Nat → Bool) (i j : Nat) (hij : i ≤ j)
    (hmono : ∀ a b, i ≤ a → a ≤ b → b < j → f a = true → f b = true) :
    i ≤ searchGo f i j ∧ searchGo f i j ≤ j ∧
    (∀ k, i ≤ k → k < searchGo f i j → f k = false) ∧
    (∀ k, searchGo f i j ≤ k → k < j → f k = true) := by
  have main : ∀ n i j, j - i ≤ n → i ≤ j →
      (∀ a b, i ≤ a → a ≤ b → b < j → f a = true → f b = true) →
      i ≤ searchGo f i j ∧ searchGo f i j ≤ j ∧
      (∀ k, i ≤ k → k < searchGo f i j → f k = false) ∧
      (∀ k, searchGo f i j ≤ k → k < j → f k = true) := by
    intro n
    induction n with
    | zero =>
      intro i j hn hij hmono
      have hje : ¬ i < j := by omega
      rw [searchGo_of_ge f i j hje]
      exact ⟨le_refl i, hij, fun k h1 h2 => absurd h2 (by omega),
        fun k h1 h2 => absurd h2 (by omega)⟩
    | succ n ih =>
      intro i j hn hij hmono
      by_cases hlt : i < j
      · have hm1 : i ≤ (i + j) / 2 := by omega
        have hm2 : (i + j) / 2 < j := by omega
        rw [searchGo_of_lt f i j hlt]
        cases hfm : f ((i + j) / 2) with
        | true =>
          rw [if_pos rfl]
          have post := ih i ((i + j) / 2) (by omega) (by omega)
            (fun a b ha hab hb hfa => hmono a b ha hab (by omega) hfa)
          obtain ⟨p1, p2, p3, p4⟩ := post
          refine ⟨p1, by omega, p3, ?_⟩
          intro k hk1 hk2
          by_cases hkm : k < (i + j) / 2
          · exact p4 k hk1 hkm
          · exact hmono ((i + j) / 2) k hm1 (by omega) hk2 hfm
        | false =>
          rw [if_neg (by simp)]
          have post := ih ((i + j) / 2 + 1) j (by omega) (by omega)
            (fun a b ha hab hb hfa => hmono a b (by omega) hab hb hfa)
          obtain ⟨p1, p2, p3, p4⟩ := post
          refine ⟨by omega, p2, ?_, p4⟩
          intro k hk1 hk2
          by_cases hkm : (i + j) / 2 + 1 ≤ k
          · exact p3 k hkm hk2
          · cases hfk : f k with
            | false => rfl
            | true =>
              have : f ((i + j) / 2) = true :=
                hmono k ((i + j) / 2) hk1 (by omega) hm2 hfk
              rw [hfm] at this
              exact absurd this (by simp)
      · rw [searchGo_of_ge f i j hlt]
        exact ⟨le_refl i, hij, fun k h1 h2 => absurd h2 (by omega),
          fun k h1 h2 => absurd h2 (by omega)⟩
  exact main (j - i) i j (le_refl _) hij hmono

/-- Correctness of `sort.Search`: for a predicate monotone on `[0, n)`,
the result bounds the false part below and the true part above. -/
theorem sortSearch_correct (n : Nat) (f : Nat → Bool)
    (hmono : ∀ a b, a ≤ b → b < n → f a = true → f b = true) :
    sortSearch n f ≤ n ∧
    (∀ k, k < sortSearch n f → f k = false) ∧
    (∀ k, sortSearch n f ≤ k → k < n → f k = true) := by
  obtain ⟨p1, p2, p3, p4⟩ :=
    searchGo_correct f 0 n (Nat.zero_le n)
      (fun a b _ hab hb hfa => hmono a b hab hb hfa)
  exact ⟨p2, fun k hk => p3 k (Nat.zero_le k) hk, p4⟩

/-- In a `≤`-sorted list, `getD` is monotone over in-range indices. -/
theorem sorted_getD_mono (l : List Nat) (hs : l.Sorted (· ≤ ·))
    (a b : Nat) (hab : a ≤ b) (hb : b < l.length) :
    l.getD a 0 ≤ l.getD b 0 := by
  have ha : a < l.length := lt_of_le_of_lt hab hb
  rw [List.getD_eq_getElem l 0 ha, List.getD_eq_getElem l 0 hb]
  rcases Nat.lt_or_ge a b with h | h
  · exact hs.rel_get_of_lt (a := ⟨a, ha⟩) (b := ⟨b, hb⟩) h
  · have : a = b := by omega
    subst this
    exact le_refl _

/-- Unfolding of `Map.Get` on a non-empty ring. -/
theorem Map.Get_eq (m : Map) (key : String) (hne : m.keys ≠ []) :
    m.Get key =
      m.hashMap (m.keys.getD
        (if sortSearch m.keys.length
              (fun i => decide (m.hashVal key ≤ m.keys.getD i 0)) =
            m.keys.length
         then 0
         else sortSearch m.keys.length
           (fun i => decide (m.hashVal key ≤ m.keys.getD i 0))) 0) := by
  have hemp : m.IsEmpty = false := by
    simp [Map.IsEmpty, List.length_eq_zero, hne]
  simp only [Map.Get, hemp, Bool.false_eq_true, if_false]

/-- A ring used as concrete input for witnesses: hash is string length,
positions 2, 4, 6 owned by nodes a, b, c. -/
def exampleRing : Map :=
  { hash := fun s => s.length
    replicas := 1
    keys := [2, 4, 6]
    hashMap := fun p =>
      if p = 2 then "a" else if p = 4 then "b" else if p = 6 then "c" else "" }

/-- C1: on a ring with at least one position (its position list sorted
ascending, as `Add` leaves it), `Get key` returns `PositionToNode[p]` where
`p` is the smallest stored position `≥ hash(key)`; when every stored
position is `< hash(key)`, it wraps around to the first sorted position. -/
theorem consistenthash_C1 (m : Map) (key : String)
    (hne : m.keys ≠ []) (hsorted : m.keys.Sorted (· ≤ ·)) :
    ((∃ p ∈ m.keys, m.hashVal key ≤ p) →
      ∃ p, p ∈ m.keys ∧ m.hashVal key ≤ p ∧
        (∀ q ∈ m.keys, m.hashVal key ≤ q → p ≤ q) ∧
        m.Get key = m.hashMap p) ∧
    ((∀ p ∈ m.keys, p < m.hashVal key) →
      m.Get key = m.hashMap (m.keys.headD 0)) := by
  have hnpos : 0 < m.keys.length := List.length_pos.mpr hne
  obtain ⟨q2, q3, q4⟩ :=
    sortSearch_correct m.keys.length
      (fun i => decide (m.hashVal key ≤ m.keys.getD i 0))
      (by
        intro a b hab hb hfa
        simp only [decide_eq_true_eq] at hfa ⊢
        exact le_trans hfa (sorted_getD_mono m.keys hsorted a b hab hb))
  constructor
  · rintro ⟨p0, hp0mem, hp0ge⟩
    have hidxlt : sortSearch m.keys.length
        (fun i => decide (m.hashVal key ≤ m.keys.getD i 0)) <
        m.keys.length := by
      by_contra hge
      obtain ⟨t, ht, rfl⟩ := List.mem_iff_getElem.mp hp0mem
      have htlt : t < sortSearch m.keys.length
          (fun i => decide (m.hashVal key ≤ m.keys.getD i 0)) := by omega
      have hf := q3 t htlt
      simp only [decide_eq_false_iff_not] at hf
      rw [List.getD_eq_getElem m.keys 0 ht] at hf
      exact hf hp0ge
    refine ⟨m.keys.getD (sortSearch m.keys.length
      (fun i => decide (m.hashVal key ≤ m.keys.getD i 0))) 0,
      ?_, ?_, ?_, ?_⟩
    · rw [List.getD_eq_getElem m.keys 0 hidxlt]
      exact List.getElem_mem hidxlt
    · have hf := q4 _ (le_refl _) hidxlt
      simpa using hf
    · intro q hq hqge
      obtain ⟨t, ht, rfl⟩ := List.mem_iff_getElem.mp hq
      by_cases htidx : t < sortSearch m.keys.length
          (fun i => decide (m.hashVal key ≤ m.keys.getD i 0))
      · exfalso
        have hf := q3 t htidx
        simp only [decide_eq_false_iff_not] at hf
        rw [List.getD_eq_getElem m.keys 0 ht] at hf
        exact hf hqge
      · have hmo := sorted_getD_mono m.keys hsorted
          (sortSearch m.keys.length
            (fun i => decide (m.hashVal key ≤ m.keys.getD i 0)))
          t (by omega) ht
        rw [List.getD_eq_getElem m.keys 0 ht] at hmo
        exact hmo
    · rw [Map.Get_eq m key hne, if_neg (by omega)]
  · intro hall
    have hidxe : sortSearch m.keys.length
        (fun i => decide (m.hashVal key ≤ m.keys.getD i 0)) =
        m.keys.length := by
      by_contra hne2
      have hlt : sortSearch m.keys.length
          (fun i => decide (m.hashVal key ≤ m.keys.getD i 0)) <
          m.keys.length := by omega
      have hf := q4 _ (le_refl _) hlt
      simp only [decide_eq_true_eq] at hf
      have hmem : m.keys.getD (sortSearch m.keys.length
          (fun i => decide (m.hashVal key ≤ m.keys.getD i 0))) 0 ∈ m.keys := by
        rw [List.getD_eq_getElem m.keys 0 hlt]
        exact List.getElem_mem hlt
      have := hall _ hmem
      omega
    rw [Map.Get_eq m key hne, if_pos hidxe]
    have hh : m.keys.getD 0 0 = m.keys.headD 0 := by
      cases m.keys <;> rfl
    rw [hh]

/-- Witness for C1: on the example ring, the key of hash 3 lands on the
node at position 4, the least position `≥ 3`. -/
theorem consistenthash_C1_witness :
    ∃ p, p ∈ exampleRing.keys ∧ exampleRing.hashVal "abc" ≤ p ∧
      (∀ q ∈ exampleRing.keys, exampleRing.hashVal "abc" ≤ q → p ≤ q) ∧
      exampleRing.Get "abc" = exampleRing.hashMap p :=
  (consistenthash_C1 exampleRing "abc" (by decide) (by decide)).1
    ⟨4, by decide, by decide⟩

/-- Sequential overriding of a position-to-node map by a list of
`(position, node)` pairs, earliest first. -/
def applyPairs (f : Nat → String) (ps : List (Nat × String)) : Nat → String :=
  ps.foldl (fun g pr => fun p => if p = pr.1 then pr.2 else g p) f

theorem addKey_foldl_range (m : Map) (key : String) (is : List Nat) :
    is.foldl
      (fun acc i =>
        let h := acc.hashVal (toString i ++ key)
        { acc with
            keys := acc.keys ++ [h]
            hashMap := fun p => if p = h then key else acc.hashMap p }) m =
    { m with
        keys := m.keys ++ is.map (fun i => m.hashVal (toString i ++ key))
        hashMap := applyPairs m.hashMap
          (is.map (fun i => (m.hashVal (toString i ++ key), key))) } := by
  induction is generalizing m with
  | nil =>
    cases m
    simp [applyPairs]
  | cons i is ih =>
    cases m with
    | mk hash replicas keys hashMap =>
      simp only [List.foldl_cons]
      rw [ih]
      simp [applyPairs, Map.hashVal]

theorem addKey_eq (m : Map) (key : String) :
    m.addKey key =
      { m with
          keys := m.keys ++
            (List.range m.replicas).map (fun i => m.hashVal (toString i ++ key))
          hashMap := applyPairs m.hashMap
            ((List.range m.replicas).map
              (fun i => (m.hashVal (toString i ++ key), key))) } := by
  rw [Map.addKey, addKey_foldl_range]

theorem foldl_addKey_eq (m : Map) (ks : List String) :
    ks.foldl Map.addKey m =
      { m with
          keys := m.keys ++ (m.genPairs ks).map Prod.fst
          hashMap := applyPairs m.hashMap (m.genPairs ks) } := by
  induction ks generalizing m with
  | nil =>
    cases m
    simp [Map.genPairs, applyPairs]
  | cons k ks ih =>
    cases m with
    | mk hash replicas keys hashMap =>
      simp only [List.foldl_cons]
      rw [addKey_eq, ih]
      simp [Map.genPairs, applyPairs, Map.hashVal, List.foldl_append,
        List.map_map, Function.comp]

theorem applyPairs_apply (f : Nat → String) (ps : List (Nat × String))
    (p : Nat) :
    applyPairs f ps p =
      match ps.reverse.find? (fun pr => decide (pr.1 = p)) with
      | some pr => pr.2
      | none => f p := by
  induction ps generalizing f with
  | nil => rfl
  | cons x ps ih =>
    have hstep : applyPairs f (x :: ps) =
        applyPairs (fun q => if q = x.1 then x.2 else f q) ps := rfl
    rw [hstep, ih, List.reverse_cons, List.find?_append]
    cases hfind : ps.reverse.find? (fun pr => decide (pr.1 = p)) with
    | some pr => rfl
    | none =>
      simp only [Option.none_or]
      by_cases hxp : x.1 = p
      · simp [List.find?, hxp]
      · simp [List.find?, hxp, Ne.symm hxp]

/-- C4: one `Add` call appends, for each supplied node and each replica
index `i`, the position `hash(itoa(i) ++ node)`; afterwards the position
list is ascending-sorted with exactly those positions added (duplicates
kept), and the position-to-node map sends each position to the node of the
last inserted pair that produced it (later inserts overwrite). -/
theorem consistenthash_C4 (m : Map) (ks : List String) :
    ((m.Add ks).keys).Sorted (· ≤ ·) ∧
    ((m.Add ks).keys).Perm (m.keys ++ (m.genPairs ks).map Prod.fst) ∧
    (∀ p : Nat, (m.Add ks).hashMap p =
      match (m.genPairs ks).reverse.find? (fun pr => decide (pr.1 = p)) with
      | some pr => pr.2
      | none => m.hashMap p) := by
  have hAdd : m.Add ks =
      { m with
          keys := (m.keys ++ (m.genPairs ks).map Prod.fst).insertionSort (· ≤ ·)
          hashMap := applyPairs m.hashMap (m.genPairs ks) } := by
    rw [Map.Add, foldl_addKey_eq]
  rw [hAdd]
  refine ⟨List.sorted_insertionSort (· ≤ ·) _, List.perm_insertionSort (· ≤ ·) _,
    fun p => applyPairs_apply m.hashMap (m.genPairs ks) p⟩

/-- C8: a freshly constructed ring is empty, and `Get` on it returns the
empty-string sentinel for every key. -/
theorem consistenthash_C8 (replicas : Nat) (fn : Option (String → Nat))
    (key : String) :
    (Map.New replicas fn).IsEmpty = true ∧ (Map.New replicas fn).Get key = "" :=
  ⟨rfl, rfl⟩

end ConsistentHash

namespace LRU

/-!
The `lru.Cache` struct. The doubly linked recency list `ll` becomes a
`List (K × V)` with the front (most-recently-used) element first; the
lookup map `cache` from keys to list elements is represented implicitly:
in every state the Go code reaches, the map holds exactly one element
pointer per key of `ll`, so `cache[key]` is modelled by finding the unique
entry of the list whose key matches. `cache == nil` (the zero value, or
the state `Clear` leaves) is modelled by `store = none`; the Go code nils
or recreates `ll` and `cache` together.

Eviction callbacks: each mutating operation also returns the list of
`(key, value)` pairs that `OnEvicted` would be invoked with (in invocation
order); an unset callback simply means the caller ignores that list.
`Get` never invokes the callback, so its second component is always `[]`.
-/
structure Cache (K V : Type) where
  maxEntries : Int
  store : Option (List (K × V))

variable {K V : Type} [DecidableEq K]

/-- `lru.New`: fresh cache with an empty list and map. -/
def Cache.new (maxEntries : Int) : Cache K V :=
  { maxEntries := maxEntries, store := some [] }

/-- `Cache.RemoveOldest`: nil guard, then detach `ll.Back()` (the list's
last element) and report it to the callback, as `removeElement` does. -/
def Cache.removeOldest (c : Cache K V) : Cache K V × List (K × V) :=
  match c.store with
  | none => (c, [])
  | some l =>
    match l.getLast? with
    | some e => ({ c with store := some l.dropLast }, [e])
    | none => (c, [])

/-- `Cache.Add`: recreate nil structures; on a hit move the entry to the
front and overwrite its value; on a miss push a new front entry, then
evict via `RemoveOldest` when `MaxEntries != 0` and the length exceeds
`MaxEntries`. -/
def Cache.add (c : Cache K V) (key : K) (value : V) : Cache K V × List (K × V) :=
  let c1 : Cache K V := if c.store.isNone then { c with store := some [] } else c
  let l := c1.store.getD []
  match l.find? (fun e => decide (e.1 = key)) with
  | some _ =>
    ({ c1 with
        store := some ((key, value) :: l.eraseP (fun e => decide (e.1 = key))) },
      [])
  | none =>
    let c2 : Cache K V := { c1 with store := some ((key, value) :: l) }
    if c1.maxEntries ≠ 0 ∧ c1.maxEntries < (((key, value) :: l).length : Int) then
      c2.removeOldest
    else (c2, [])

/-- `Cache.Get`: nil guard; on a hit move the entry to the front and
return its value. `Get` never reaches the callback, hence the constant
`[]` component. -/
def Cache.get (c : Cache K V) (key : K) : Cache K V × List (K × V) × Option V :=
  match c.store with
  | none => (c, [], none)
  | some l =>
    match l.find? (fun e => decide (e.1 = key)) with
    | some e =>
      ({ c with store := some (e :: l.eraseP (fun x => decide (x.1 = key))) },
        [], some e.2)
    | none => (c, [], none)

/-- `Cache.Remove`: nil guard; on a hit detach the entry from list and map
(`removeElement`) and report it to the callback. -/
def Cache.remove (c : Cache K V) (key : K) : Cache K V × List (K × V) :=
  match c.store with
  | none => (c, [])
  | some l =>
    match l.find? (fun e => decide (e.1 = key)) with
    | some e =>
      ({ c with store := some (l.eraseP (fun x => decide (x.1 = key))) }, [e])
    | none => (c, [])

/-- `Cache.Len`: 0 on a nil cache, else the list length. -/
def Cache.len (c : Cache K V) : Nat :=
  match c.store with
  | none => 0
  | some l => l.length

/-- `Cache.Clear`: report every remaining entry to the callback, then nil
out the list and the map. -/
def Cache.clear (c : Cache K V) : Cache K V × List (K × V) :=
  ({ c with store := none }, c.store.getD [])

/-- A sequence of `Add` calls, accumulating the eviction reports. -/
def Cache.addAll (c : Cache K V) (ps : List (K × V)) : Cache K V × List (K × V) :=
  ps.foldl
    (fun acc p =>
      let r := acc.1.add p.1 p.2
      (r.1, acc.2 ++ r.2))
    (c, [])

/-- One call of the public API, for stating state invariants. -/
inductive Op (K V : Type) where
  | add (key : K) (value : V)
  | get (key : K)
  | remove (key : K)
  | removeOldest
  | len
  | clear

/-- The state reached after one operation (callback reports and query
results discarded). -/
def Cache.applyOp (c : Cache K V) : Op K V → Cache K V
  | Op.add k v => (c.add k v).1
  | Op.get k => (c.get k).1
  | Op.remove k => (c.remove k).1
  | Op.removeOldest => c.removeOldest.1
  | Op.len => c
  | Op.clear => c.clear.1

/-- Well-formedness: at most one entry per key, and when the capacity is
positive the entry count stays within it. -/
def WF (c : Cache K V) : Prop :=
  ∀ l, c.store = some l →
    (l.map Prod.fst).Nodup ∧ (0 < c.maxEntries → (l.length : Int) ≤ c.maxEntries)

theorem add_hit (c : Cache K V) (l : List (K × V)) (key : K) (value : V)
    (hl : c.store = some l) (e : K × V)
    (hfind : l.find? (fun x => decide (x.1 = key)) = some e) :
    c.add key value =
      ({ c with
          store := some ((key, value) :: l.eraseP (fun x => decide (x.1 = key))) },
        []) := by
  simp only [Cache.add, hl, Option.isNone_some, Bool.false_eq_true, if_false,
    Option.getD_some, hfind]

theorem add_miss (c : Cache K V) (l : List (K × V)) (key : K) (value : V)
    (hl : c.store = some l)
    (hfind : l.find? (fun x => decide (x.1 = key)) = none) :
    c.add key value =
      if c.maxEntries ≠ 0 ∧ c.maxEntries < (((key, value) :: l).length : Int) then
        ({ c with store := some (((key, value) :: l).dropLast) },
          [((key, value) :: l).getLast (List.cons_ne_nil _ _)])
      else ({ c with store := some ((key, value) :: l) }, []) := by
  have hlast : ((key, value) :: l).getLast? =
      some (((key, value) :: l).getLast (List.cons_ne_nil _ _)) :=
    List.getLast?_eq_getLast _ _
  simp only [Cache.add, hl, Option.isNone_some, Bool.false_eq_true, if_false,
    Option.getD_some, hfind, Cache.removeOldest, hlast]

theorem add_nil (c : Cache K V) (key : K) (value : V)
    (hl : c.store = none) :
    c.add key value = Cache.add { c with store := some [] } key value := by
  simp only [Cache.add, hl, Option.isNone_none, if_true, Option.isNone_some,
    Bool.false_eq_true, if_false]

theorem get_hit (c : Cache K V) (l : List (K × V)) (key : K)
    (hl : c.store = some l) (e : K × V)
    (hfind : l.find? (fun x => decide (x.1 = key)) = some e) :
    c.get key =
      ({ c with store := some (e :: l.eraseP (fun x => decide (x.1 = key))) },
        [], some e.2) := by
  simp only [Cache.get, hl, hfind]

theorem get_miss (c : Cache K V) (l : List (K × V)) (key : K)
    (hl : c.store = some l)
    (hfind : l.find? (fun x => decide (x.1 = key)) = none) :
    c.get key = (c, [], none) := by
  simp only [Cache.get, hl, hfind]

theorem get_nil (c : Cache K V) (key : K) (hl : c.store = none) :
    c.get key = (c, [], none) := by
  simp only [Cache.get, hl]

theorem remove_found (c : Cache K V) (l : List (K × V)) (key : K)
    (hl : c.store = some l) (e : K × V)
    (hfind : l.find? (fun x => decide (x.1 = key)) = some e) :
    c.remove key =
      ({ c with store := some (l.eraseP (fun x => decide (x.1 = key))) }, [e]) := by
  simp only [Cache.remove, hl, hfind]

theorem remove_absent (c : Cache K V) (l : List (K × V)) (key : K)
    (hl : c.store = some l)
    (hfind : l.find? (fun x => decide (x.1 = key)) = none) :
    c.remove key = (c, []) := by
  simp only [Cache.remove, hl, hfind]

theorem remove_nil (c : Cache K V) (key : K) (hl : c.store = none) :
    c.remove key = (c, []) := by
  simp only [Cache.remove, hl]

theorem removeOldest_cons (c : Cache K V) (l : List (K × V))
    (hl : c.store = some l) (hne : l ≠ []) :
    c.removeOldest = ({ c with store := some l.dropLast }, [l.getLast hne]) := by
  simp only [Cache.removeOldest, hl, List.getLast?_eq_getLast l hne]

theorem removeOldest_empty (c : Cache K V) (hl : c.store = some []) :
    c.removeOldest = (c, []) := by
  simp only [Cache.removeOldest, hl, List.getLast?_nil]

theorem removeOldest_nil (c : Cache K V) (hl : c.store = none) :
    c.removeOldest = (c, []) := by
  simp only [Cache.removeOldest, hl]

/-- With one entry per key, the map lookup finds exactly the entry holding
the key. -/
theorem find?_key_of_nodup (l : List (K × V))
    (hnd : (l.map Prod.fst).Nodup) (key : K) (v : V) (hmem : (key, v) ∈ l) :
    l.find? (fun x => decide (x.1 = key)) = some (key, v) := by
  induction l with
  | nil => cases hmem
  | cons a t ih =>
    rw [List.map_cons, List.nodup_cons] at hnd
    rcases List.mem_cons.mp hmem with heq | hmem2
    · rw [← heq]
      exact List.find?_cons_of_pos t (by simp)
    · by_cases hak : a.1 = key
      · exfalso
        have : (key, v).1 ∈ t.map Prod.fst := List.mem_map_of_mem Prod.fst hmem2
        rw [← hak] at this
        exact hnd.1 this
      · rw [List.find?_cons_of_neg t (by simp [hak])]
        exact ih hnd.2 hmem2

/-- After erasing the entry holding `key`, no entry holds `key`. -/
theorem key_not_mem_eraseP (l : List (K × V))
    (hnd : (l.map Prod.fst).Nodup) (key : K) :
    key ∉ (l.eraseP (fun x => decide (x.1 = key))).map Prod.fst := by
  induction l with
  | nil => simp
  | cons a t ih =>
    rw [List.map_cons, List.nodup_cons] at hnd
    by_cases hak : a.1 = key
    · rw [List.eraseP_cons_of_pos (by simp [hak])]
      rw [← hak]
      exact hnd.1
    · rw [List.eraseP_cons_of_neg (by simp [hak]), List.map_cons]
      rw [List.mem_cons]
      rintro (heq | hmem)
      · exact hak heq.symm
      · exact ih hnd.2 hmem

/-- Erasing preserves the one-entry-per-key property. -/
theorem nodup_map_eraseP (l : List (K × V)) (p : K × V → Bool)
    (hnd : (l.map Prod.fst).Nodup) :
    ((l.eraseP p).map Prod.fst).Nodup :=
  List.Nodup.sublist (List.Sublist.map Prod.fst (List.eraseP_sublist l)) hnd

/-- Dropping the last entry preserves the one-entry-per-key property. -/
theorem nodup_map_dropLast (l : List (K × V))
    (hnd : (l.map Prod.fst).Nodup) :
    (l.dropLast.map Prod.fst).Nodup :=
  List.Nodup.sublist (List.Sublist.map Prod.fst (List.dropLast_sublist l)) hnd

/-- A `find?` miss for a key means no entry carries it. -/
theorem key_not_mem_of_find?_eq_none (l : List (K × V)) (key : K)
    (hfind : l.find? (fun x => decide (x.1 = key)) = none) :
    key ∉ l.map Prod.fst := by
  intro hmem
  obtain ⟨e, he, hfst⟩ := List.mem_map.mp hmem
  have := List.find?_eq_none.mp hfind e he
  simp [hfst] at this

theorem WF_intro (m : Int) (l : List (K × V))
    (hnd : (l.map Prod.fst).Nodup) (hb : 0 < m → (l.length : Int) ≤ m) :
    WF (⟨m, some l⟩ : Cache K V) := by
  intro l' hl'
  have heq : l = l' := Option.some.inj hl'
  subst heq
  exact ⟨hnd, hb⟩

theorem WF_none (m : Int) : WF (⟨m, none⟩ : Cache K V) :=
  fun _ hl => Option.noConfusion hl

theorem WF_new (cap : Int) : WF (Cache.new cap : Cache K V) :=
  WF_intro cap [] List.nodup_nil
    (fun h => by simp only [List.length_nil, Nat.cast_zero]; omega)

theorem WF_add_of_store (c : Cache K V) (key : K) (value : V)
    (l : List (K × V)) (hl : c.store = some l) (hWF : WF c) :
    WF (c.add key value).1 := by
  obtain ⟨hnd, hlen⟩ := hWF l hl
  cases hf : l.find? (fun x => decide (x.1 = key)) with
  | some e =>
    rw [add_hit c l key value hl e hf]
    apply WF_intro
    · rw [List.map_cons, List.nodup_cons]
      exact ⟨key_not_mem_eraseP l hnd key, nodup_map_eraseP l _ hnd⟩
    · intro hpos
      have he1 : e ∈ l := List.mem_of_find?_eq_some hf
      have hpe := List.find?_some hf
      have hlenE : (l.eraseP (fun x => decide (x.1 = key))).length =
          l.length - 1 := List.length_eraseP_of_mem he1 hpe
      have hlpos : 0 < l.length := List.length_pos.mpr
        (by rintro rfl; cases he1)
      have hcap := hlen hpos
      simp only [List.length_cons, hlenE]
      omega
  | none =>
    rw [add_miss c l key value hl hf]
    have hknd : ((key, value) :: l).map Prod.fst = key :: l.map Prod.fst := rfl
    have hnotmem := key_not_mem_of_find?_eq_none l key hf
    by_cases hcond : c.maxEntries ≠ 0 ∧
        c.maxEntries < (((key, value) :: l).length : Int)
    · rw [if_pos hcond]
      apply WF_intro
      · apply nodup_map_dropLast
        rw [hknd, List.nodup_cons]
        exact ⟨hnotmem, hnd⟩
      · intro hpos
        have hcap := hlen hpos
        simp only [List.length_dropLast, List.length_cons]
        omega
    · rw [if_neg hcond]
      apply WF_intro
      · rw [hknd, List.nodup_cons]
        exact ⟨hnotmem, hnd⟩
      · intro hpos
        simp only [List.length_cons] at hcond ⊢
        omega

theorem WF_add (c : Cache K V) (key : K) (value : V) (hWF : WF c) :
    WF (c.add key value).1 := by
  cases hs : c.store with
  | none =>
    rw [add_nil c key value hs]
    exact WF_add_of_store _ key value [] rfl
      (WF_intro c.maxEntries [] List.nodup_nil
        (fun h => by simp only [List.length_nil, Nat.cast_zero]; omega))
  | some l => exact WF_add_of_store c key value l hs hWF

theorem WF_get (c : Cache K V) (key : K) (hWF : WF c) :
    WF (c.get key).1 := by
  cases hs : c.store with
  | none => rw [get_nil c key hs]; exact hWF
  | some l =>
    obtain ⟨hnd, hlen⟩ := hWF l hs
    cases hf : l.find? (fun x => decide (x.1 = key)) with
    | none => rw [get_miss c l key hs hf]; exact hWF
    | some e =>
      rw [get_hit c l key hs e hf]
      have hpe0 := List.find?_some hf
      have hek : e.1 = key := of_decide_eq_true hpe0
      apply WF_intro
      · rw [List.map_cons, List.nodup_cons, hek]
        exact ⟨key_not_mem_eraseP l hnd key, nodup_map_eraseP l _ hnd⟩
      · intro hpos
        have he1 : e ∈ l := List.mem_of_find?_eq_some hf
        have hpe := List.find?_some hf
        have hlenE : (l.eraseP (fun x => decide (x.1 = key))).length =
            l.length - 1 := List.length_eraseP_of_mem he1 hpe
        have hlpos : 0 < l.length := List.length_pos.mpr
          (by rintro rfl; cases he1)
        have hcap := hlen hpos
        simp only [List.length_cons, hlenE]
        omega

theorem WF_remove (c : Cache K V) (key : K) (hWF : WF c) :
    WF (c.remove key).1 := by
  cases hs : c.store with
  | none => rw [remove_nil c key hs]; exact hWF
  | some l =>
    obtain ⟨hnd, hlen⟩ := hWF l hs
    cases hf : l.find? (fun x => decide (x.1 = key)) with
    | none => rw [remove_absent c l key hs hf]; exact hWF
    | some e =>
      rw [remove_found c l key hs e hf]
      apply WF_intro
      · exact nodup_map_eraseP l _ hnd
      · intro hpos
        have hle : (l.eraseP (fun x => decide (x.1 = key))).length ≤ l.length :=
          (List.eraseP_sublist l).length_le
        have hcap := hlen hpos
        omega

theorem WF_removeOldest (c : Cache K V) (hWF : WF c) :
    WF c.removeOldest.1 := by
  cases hs : c.store with
  | none => rw [removeOldest_nil c hs]; exact hWF
  | some l =>
    cases l with
    | nil => rw [removeOldest_empty c hs]; exact hWF
    | cons a t =>
      obtain ⟨hnd, hlen⟩ := hWF (a :: t) hs
      rw [removeOldest_cons c (a :: t) hs (List.cons_ne_nil a t)]
      apply WF_intro
      · exact nodup_map_dropLast (a :: t) hnd
      · intro hpos
        have hcap := hlen hpos
        simp only [List.length_dropLast, List.length_cons] at hcap ⊢
        omega

theorem WF_clear (c : Cache K V) : WF c.clear.1 :=
  WF_none c.maxEntries

theorem WF_applyOp (c : Cache K V) (op : Op K V) (hWF : WF c) :
    WF (c.applyOp op) := by
  cases op with
  | add k v => exact WF_add c k v hWF
  | get k => exact WF_get c k hWF
  | remove k => exact WF_remove c k hWF
  | removeOldest => exact WF_removeOldest c hWF
  | len => exact hWF
  | clear => exact WF_clear c

theorem add_maxEntries_of_store (c : Cache K V) (key : K) (value : V)
    (l : List (K × V)) (hl : c.store = some l) :
    (c.add key value).1.maxEntries = c.maxEntries := by
  cases hf : l.find? (fun x => decide (x.1 = key)) with
  | some e => rw [add_hit c l key value hl e hf]
  | none =>
    rw [add_miss c l key value hl hf]
    by_cases hcond : c.maxEntries ≠ 0 ∧
        c.maxEntries < (((key, value) :: l).length : Int)
    · rw [if_pos hcond]
    · rw [if_neg hcond]

theorem add_maxEntries (c : Cache K V) (key : K) (value : V) :
    (c.add key value).1.maxEntries = c.maxEntries := by
  cases hs : c.store with
  | none =>
    rw [add_nil c key value hs]
    exact add_maxEntries_of_store _ key value [] rfl
  | some l => exact add_maxEntries_of_store c key value l hs

theorem add_no_evict_of_max_zero (c : Cache K V) (key : K) (value : V)
    (h : c.maxEntries = 0) :
    (c.add key value).2 = [] := by
  have hsome : ∀ (c : Cache K V) l, c.store = some l → c.maxEntries = 0 →
      (c.add key value).2 = [] := by
    intro c l hl h
    cases hf : l.find? (fun x => decide (x.1 = key)) with
    | some e => rw [add_hit c l key value hl e hf]
    | none =>
      rw [add_miss c l key value hl hf, if_neg (by simp [h])]
  cases hs : c.store with
  | none => rw [add_nil c key value hs]; exact hsome _ [] rfl h
  | some l => exact hsome c l hs h

theorem addAll_foldl_max_zero (ps : List (K × V)) :
    ∀ (c : Cache K V) (acc : List (K × V)), c.maxEntries = 0 →
      (ps.foldl
        (fun r p =>
          let s := r.1.add p.1 p.2
          (s.1, r.2 ++ s.2)) (c, acc)).2 = acc := by
  induction ps with
  | nil => intro c acc _; rfl
  | cons p ps ih =>
    intro c acc h
    rw [List.foldl_cons]
    have h2 := add_no_evict_of_max_zero c p.1 p.2 h
    have h3 : (c.add p.1 p.2).1.maxEntries = 0 := by
      rw [add_maxEntries]; exact h
    simp only [h2, List.append_nil]
    exact ih (c.add p.1 p.2).1 acc h3

/-- C3: starting from any freshly constructed cache, every operation
sequence preserves well-formedness: one entry per present key, and when
the capacity is positive, at most capacity entries. -/
theorem lru_C3 (cap : Int) (ops : List (Op K V)) :
    WF (ops.foldl Cache.applyOp (Cache.new cap)) := by
  suffices h : ∀ c : Cache K V, WF c → WF (ops.foldl Cache.applyOp c) from
    h _ (WF_new cap)
  induction ops with
  | nil => exact fun c h => h
  | cons op ops ih =>
    intro c h
    exact ih _ (WF_applyOp c op h)

/-- Witness for C3: a concrete operation sequence on a capacity-2 cache
leaves a well-formed state. -/
theorem lru_C3_witness :
    WF (([Op.add 1 10, Op.add 2 20, Op.add 3 30, Op.get 2,
      Op.remove 1] : List (Op Nat Nat)).foldl Cache.applyOp (Cache.new 2)) :=
  lru_C3 2 [Op.add 1 10, Op.add 2 20, Op.add 3 30, Op.get 2, Op.remove 1]

/-- C2: `Add` on a present key overwrites its value and moves the entry to
the front, leaving the rest of the list untouched and evicting nothing; on
an absent key it pushes a new front entry and then evicts exactly the
least-recently-used (back) entry precisely when the capacity is non-zero
and exceeded; with capacity 0 no sequence of `Add` calls ever evicts. -/
theorem lru_C2 (c : Cache K V) (l : List (K × V)) (key : K) (value : V)
    (hl : c.store = some l) (hnd : (l.map Prod.fst).Nodup) :
    ((∃ v0, (key, v0) ∈ l) →
      c.add key value =
        ({ c with
            store := some ((key, value) ::
              l.eraseP (fun x => decide (x.1 = key))) }, [])) ∧
    ((∀ v0, (key, v0) ∉ l) →
      ((c.maxEntries ≠ 0 ∧ c.maxEntries < (l.length : Int) + 1) →
        c.add key value =
          ({ c with store := some (((key, value) :: l).dropLast) },
            [((key, value) :: l).getLast (List.cons_ne_nil _ _)])) ∧
      (¬(c.maxEntries ≠ 0 ∧ c.maxEntries < (l.length : Int) + 1) →
        c.add key value = ({ c with store := some ((key, value) :: l) }, []))) ∧
    (c.maxEntries = 0 → ∀ ps : List (K × V), (c.addAll ps).2 = []) := by
  refine ⟨?_, ?_, ?_⟩
  · rintro ⟨v0, hmem⟩
    exact add_hit c l key value hl (key, v0)
      (find?_key_of_nodup l hnd key v0 hmem)
  · intro habs
    have hf : l.find? (fun x => decide (x.1 = key)) = none := by
      rw [List.find?_eq_none]
      intro x hx
      simp only [decide_eq_true_eq]
      intro hxk
      have hxe : (key, x.2) = x := by
        rw [← hxk]
      exact habs x.2 (hxe ▸ hx)
    have hcast : (((key, value) :: l).length : Int) = (l.length : Int) + 1 := by
      simp
    have hmiss := add_miss c l key value hl hf
    rw [hcast] at hmiss
    constructor
    · intro hcond
      rw [hmiss, if_pos hcond]
    · intro hcond
      rw [hmiss, if_neg hcond]
  · intro h ps
    exact addAll_foldl_max_zero ps c [] h

/-- Witness for C2: updating present key 1 on a capacity-2 cache moves it
to the front with the new value and evicts nothing. -/
theorem lru_C2_witness :
    (⟨2, some [(1, 10), (2, 20)]⟩ : Cache Nat Nat).add 1 99 =
      (⟨2, some [(1, 99), (2, 20)]⟩, []) := by
  rw [(lru_C2 ⟨2, some [(1, 10), (2, 20)]⟩ [(1, 10), (2, 20)] 1 99 rfl
    (by decide)).1 ⟨10, by decide⟩]
  rfl

/-- C5: `Get` on a present key moves that entry to the front and returns
its stored value with `found = true`; on an absent key (or a nil cache) it
returns `found = false`, changes nothing, and never reports an eviction. -/
theorem lru_C5 (c : Cache K V) (key : K) :
    (∀ l, c.store = some l → (l.map Prod.fst).Nodup →
      ∀ v, (key, v) ∈ l →
        c.get key =
          ({ c with
              store := some ((key, v) ::
                l.eraseP (fun x => decide (x.1 = key))) },
            [], some v)) ∧
    (∀ l, c.store = some l → (∀ v, (key, v) ∉ l) →
      c.get key = (c, [], none)) ∧
    (c.store = none → c.get key = (c, [], none)) := by
  refine ⟨?_, ?_, ?_⟩
  · intro l hl hnd v hmem
    exact get_hit c l key hl (key, v) (find?_key_of_nodup l hnd key v hmem)
  · intro l hl habs
    apply get_miss c l key hl
    rw [List.find?_eq_none]
    intro x hx
    simp only [decide_eq_true_eq]
    intro hxk
    have hxe : (key, x.2) = x := by
      rw [← hxk]
    exact habs x.2 (hxe ▸ hx)
  · intro hl
    exact get_nil c key hl

/-- Witness for C5: `Get 2` on a two-entry cache moves key 2 to the front
and returns its value. -/
theorem lru_C5_witness :
    (⟨2, some [(1, 10), (2, 20)]⟩ : Cache Nat Nat).get 2 =
      (⟨2, some [(2, 20), (1, 10)]⟩, [], some 20) := by
  rw [(lru_C5 (⟨2, some [(1, 10), (2, 20)]⟩ : Cache Nat Nat) 2).1
    [(1, 10), (2, 20)] rfl (by decide) 20 (by decide)]
  rfl

/-- C6: `Remove` on a present key detaches its entry and reports exactly
one callback invocation with the stored pair, after which `Get` misses;
`Remove` on an absent key or a nil cache is a no-op with no callback;
`RemoveOldest` detaches and reports the back (least-recently-used) entry,
and is a no-op on an empty or nil cache. -/
theorem lru_C6 (c : Cache K V) (key : K) :
    (∀ l, c.store = some l → (l.map Prod.fst).Nodup →
      ∀ v, (key, v) ∈ l →
        c.remove key =
          ({ c with store := some (l.eraseP (fun x => decide (x.1 = key))) },
            [(key, v)]) ∧
        ((c.remove key).1.get key).2.2 = none) ∧
    (∀ l, c.store = some l → (∀ v, (key, v) ∉ l) → c.remove key = (c, [])) ∧
    (c.store = none → c.remove key = (c, [])) ∧
    (∀ l (hl : c.store = some l) (hne : l ≠ []),
      c.removeOldest =
        ({ c with store := some l.dropLast }, [l.getLast hne])) ∧
    (c.store = some [] → c.removeOldest = (c, [])) ∧
    (c.store = none → c.removeOldest = (c, [])) := by
  refine ⟨?_, ?_, remove_nil c key, removeOldest_cons c, removeOldest_empty c,
    removeOldest_nil c⟩
  · intro l hl hnd v hmem
    have hrm := remove_found c l key hl (key, v)
      (find?_key_of_nodup l hnd key v hmem)
    refine ⟨hrm, ?_⟩
    rw [hrm]
    have hfx : (l.eraseP (fun x => decide (x.1 = key))).find?
        (fun x => decide (x.1 = key)) = none := by
      rw [List.find?_eq_none]
      intro x hx
      simp only [decide_eq_true_eq]
      intro hxk
      have hmm : x.1 ∈ (l.eraseP (fun y => decide (y.1 = key))).map Prod.fst :=
        List.mem_map_of_mem Prod.fst hx
      rw [hxk] at hmm
      exact key_not_mem_eraseP l hnd key hmm
    have hgm := get_miss
      ({ c with store := some (l.eraseP (fun x => decide (x.1 = key))) } :
        Cache K V) _ key rfl hfx
    show (Cache.get
      { c with store := some (l.eraseP (fun x => decide (x.1 = key))) }
      key).2.2 = none
    rw [hgm]
  · intro l hl habs
    apply remove_absent c l key hl
    rw [List.find?_eq_none]
    intro x hx
    simp only [decide_eq_true_eq]
    intro hxk
    have hxe : (key, x.2) = x := by
      rw [← hxk]
    exact habs x.2 (hxe ▸ hx)

/-- Witness for C6: removing present key 1 detaches it and reports one
callback invocation with its stored value. -/
theorem lru_C6_witness :
    (⟨2, some [(1, 10), (2, 20)]⟩ : Cache Nat Nat).remove 1 =
      (⟨2, some [(2, 20)]⟩, [(1, 10)]) := by
  rw [((lru_C6 (⟨2, some [(1, 10), (2, 20)]⟩ : Cache Nat Nat) 1).1
    [(1, 10), (2, 20)] rfl (by decide) 10 (by decide)).1]
  rfl

/-- C7: `Clear` reports every remaining entry to the callback exactly once
(one report per entry, each present key once), empties the cache, and a
subsequent `Add` behaves exactly as on a freshly constructed cache of the
same capacity. -/
theorem lru_C7 (c : Cache K V) (l : List (K × V))
    (hl : c.store = some l) (hnd : (l.map Prod.fst).Nodup) :
    c.clear.2 = l ∧
    (c.clear.2.map Prod.fst).Nodup ∧
    c.clear.2.length = c.len ∧
    c.clear.1.len = 0 ∧
    (∀ (k : K) (v : V),
      c.clear.1.add k v = (Cache.new c.maxEntries : Cache K V).add k v) := by
  have h2 : c.clear.2 = l := by
    simp only [Cache.clear, hl, Option.getD_some]
  refine ⟨h2, ?_, ?_, rfl, ?_⟩
  · rw [h2]; exact hnd
  · rw [h2]
    simp only [Cache.len, hl]
  · intro k v
    exact add_nil c.clear.1 k v rfl

/-- Witness for C7: clearing a two-entry cache reports both entries and
leaves length 0. -/
theorem lru_C7_witness :
    (⟨2, some [(1, 10), (2, 20)]⟩ : Cache Nat Nat).clear.2 =
      [(1, 10), (2, 20)] ∧
    (⟨2, some [(1, 10), (2, 20)]⟩ : Cache Nat Nat).clear.1.len = 0 :=
  ⟨(lru_C7 ⟨2, some [(1, 10), (2, 20)]⟩ [(1, 10), (2, 20)] rfl (by decide)).1,
    (lru_C7 ⟨2, some [(1, 10), (2, 20)]⟩ [(1, 10), (2, 20)] rfl
      (by decide)).2.2.2.1⟩

theorem add_new_neg (cap : Int) (hcap : cap < 0) (key : K) (value : V) :
    (Cache.new cap : Cache K V).add key value =
      (Cache.new cap, [(key, value)]) := by
  have hf : ([] : List (K × V)).find? (fun x => decide (x.1 = key)) = none := rfl
  have hcond : (Cache.new cap : Cache K V).maxEntries ≠ 0 ∧
      (Cache.new cap : Cache K V).maxEntries <
        ((((key, value) : K × V) :: []).length : Int) := by
    refine ⟨?_, ?_⟩ <;> simp only [Cache.new, List.length_cons, List.length_nil]
    · omega
    · simp only [Nat.cast_ofNat, Nat.zero_add, Nat.cast_one]
      omega
  rw [add_miss (Cache.new cap : Cache K V) [] key value rfl hf, if_pos hcond]
  rfl

theorem addAll_foldl_new_neg (cap : Int) (hcap : cap < 0)
    (ps : List (K × V)) :
    ∀ acc, ps.foldl
        (fun r p =>
          let s := r.1.add p.1 p.2
          (s.1, r.2 ++ s.2))
        ((Cache.new cap : Cache K V), acc) = (Cache.new cap, acc ++ ps) := by
  induction ps with
  | nil => intro acc; simp
  | cons p ps ih =>
    intro acc
    rw [List.foldl_cons]
    have hstep := add_new_neg cap hcap p.1 p.2
    simp only [hstep]
    rw [ih (acc ++ [(p.1, p.2)])]
    simp

/-- C9: with a negative capacity (outside the documented non-negative
domain), the eviction check fires on every insert, so each `Add` onto the
fresh cache immediately evicts the entry it just inserted; any sequence of
`Add` calls leaves the cache in its fresh empty state, with length 0 and
every `Get` missing, the eviction reports being exactly the added pairs. -/
theorem lru_C9 (cap : Int) (hcap : cap < 0) (key : K) (value : V)
    (ps : List (K × V)) :
    (Cache.new cap : Cache K V).add key value =
      (Cache.new cap, [(key, value)]) ∧
    (Cache.new cap : Cache K V).addAll ps = (Cache.new cap, ps) ∧
    ((Cache.new cap : Cache K V).addAll ps).1.len = 0 ∧
    (((Cache.new cap : Cache K V).addAll ps).1.get key).2.2 = none := by
  have h2 : (Cache.new cap : Cache K V).addAll ps = (Cache.new cap, ps) := by
    have h := addAll_foldl_new_neg cap hcap ps []
    simpa [Cache.addAll] using h
  refine ⟨add_new_neg cap hcap key value, h2, ?_, ?_⟩
  · rw [h2]
    rfl
  · rw [h2]
    rfl

/-- Witness for C9: on a capacity -1 cache, adding evicts the entry just
inserted, and a two-element add sequence leaves length 0. -/
theorem lru_C9_witness :
    (Cache.new (-1) : Cache Nat Nat).add 1 10 = (Cache.new (-1), [(1, 10)]) ∧
    ((Cache.new (-1) : Cache Nat Nat).addAll [(1, 10), (2, 20)]).1.len = 0 :=
  ⟨(lru_C9 (-1) (by norm_num) 1 10 [(1, 10), (2, 20)]).1,
    (lru_C9 (-1) (by norm_num) 1 10 [(1, 10), (2, 20)]).2.2.1⟩

/-- C10: on a cache whose internal structures are nil (after `Clear`, or a
zero value never initialised), every operation is total and acts as on an
empty cache: `Get` misses, `Len` is 0, `Remove`, `RemoveOldest` and
`Clear` are no-ops with no callback, and `Add` recreates the structures,
behaving exactly as on a freshly constructed cache of that capacity. -/
theorem lru_C10 (cap : Int) (key : K) (value : V) :
    (⟨cap, none⟩ : Cache K V).get key = (⟨cap, none⟩, [], none) ∧
    (⟨cap, none⟩ : Cache K V).len = 0 ∧
    (⟨cap, none⟩ : Cache K V).remove key = (⟨cap, none⟩, []) ∧
    (⟨cap, none⟩ : Cache K V).removeOldest = (⟨cap, none⟩, []) ∧
    (⟨cap, none⟩ : Cache K V).clear = (⟨cap, none⟩, []) ∧
    (⟨cap, none⟩ : Cache K V).add key value =
      (Cache.new cap : Cache K V).add key value :=
  ⟨get_nil _ key rfl, rfl, remove_nil _ key rfl, removeOldest_nil _ rfl,
    rfl, add_nil _ key value rfl⟩

end LRU
